import Mathlib

/-!
Verification of the Mandelbrot renderer in `mandelbrot_set/src/main.rs`.

The program is shallow-embedded as follows:
* `Cx` models `num::Complex<f64>` with exact rational components: the exact
  (real-valued) arithmetic the formulas denote.  This idealisation is
  faithful for every loop-structural and integer-level property; where a
  property genuinely depends on `f64` rounding (the byte-identity of the two
  renderers), the bit-accurate model `F64`/`CxF` below is used instead, which
  rounds every operation to 53 bits exactly as IEEE binary64 does on the
  normal range.
* Pixel buffers are `List ℕ` of byte intensities; indexed writes become
  `List.set`, and the `assert!`/panic paths become `Option` failure.
* `crossbeam::scope` spawn/join is modelled by `renderBands`: the bands are
  rendered in buffer order and concatenated, which is the deterministic
  result the disjoint-slice partition guarantees.
-/

/-- Complex number with exact rational components, embedding `num::Complex<f64>`. -/
structure Cx where
  re : ℚ
  im : ℚ
deriving DecidableEq, Repr

instance : Add Cx := ⟨fun a b => ⟨a.re + b.re, a.im + b.im⟩⟩

/-- Complex multiplication, as in the `num` crate. -/
instance : Mul Cx := ⟨fun a b => ⟨a.re * b.re - a.im * b.im, a.re * b.im + a.im * b.re⟩⟩

/-- Embeds `Complex::norm_sqr`: squared magnitude. -/
def Cx.normSqr (z : Cx) : ℚ := z.re * z.re + z.im * z.im

/-- Embeds `const LIMIT_TO_CALL_IT_OFF_TO_INFINITY: f64 = 4.0`. -/
def LIMIT_TO_CALL_IT_OFF_TO_INFINITY : ℚ := 4

/-- Embeds `const LIMIT_OF_ITERATION: usize = 255`. -/
def LIMIT_OF_ITERATION : ℕ := 255

/-- Embeds `const CMD_ARG_COMPLEX_NUMBER_SEPARATOR: char = ','`. -/
def CMD_ARG_COMPLEX_NUMBER_SEPARATOR : Char := ','

/-- The loop of `escape_time`: `z` is the current iterate, `i` the current loop
index, and the fuel argument is the number of loop iterations left
(`limit - i`).  Each pass first tests `z.norm_sqr() > 4.0`, returning `Some(i)`
on divergence, and otherwise performs `z = z * z + c`. -/
def escapeGo (c : Cx) : Cx → ℕ → ℕ → Option ℕ
  | _, _, 0 => none
  | z, i, fuel + 1 =>
    if LIMIT_TO_CALL_IT_OFF_TO_INFINITY < z.normSqr then some i
    else escapeGo c (z * z + c) (i + 1) fuel

/-- Embeds `fn escape_time(c: Complex<f64>, limit: usize) -> Option<usize>`. -/
def escape_time (c : Cx) (limit : ℕ) : Option ℕ :=
  escapeGo c ⟨0, 0⟩ 0 limit

/-- The sequence of iterates of `z = z * z + c` starting from `z = 0`;
`zIter c i` is the value the loop variable `z` holds at the start of loop
pass `i` of `escape_time`. -/
def zIter (c : Cx) : ℕ → Cx
  | 0 => ⟨0, 0⟩
  | k + 1 => zIter c k * zIter c k + c

/-- Embeds `fn pixel_to_point(bounds, pixel, upper_left, lower_right)`:
`bounds.1` is the image width, `bounds.2` the height (Rust `bounds.0`,
`bounds.1`); `pixel.1` is the column, `pixel.2` the row. -/
def pixel_to_point (bounds : ℕ × ℕ) (pixel : ℕ × ℕ)
    (upper_left lower_right : Cx) : Cx :=
  let width : ℚ := lower_right.re - upper_left.re
  let height : ℚ := upper_left.im - lower_right.im
  ⟨upper_left.re + (pixel.1 : ℚ) * (width / (bounds.1 : ℚ)),
   upper_left.im - (pixel.2 : ℚ) * (height / (bounds.2 : ℚ))⟩

/-- The byte written for one pixel in `render`:
`match escape_time(point, LIMIT_OF_ITERATION) { None => 0, Some(count) =>
(LIMIT_OF_ITERATION - count) as u8 }`.  The `as u8` cast is `% 256`; the
subtraction is on `usize`, and since `count < 255` the truncated `ℕ`
subtraction agrees with it. -/
def intensityAt (point : Cx) : ℕ :=
  match escape_time point LIMIT_OF_ITERATION with
  | none => 0
  | some count => (LIMIT_OF_ITERATION - count) % 256

/-- Embeds `fn render(pixels: &mut [u8], bounds, upper_left, lower_right)`:
the failing `assert!(pixels.len() == bounds.0 * bounds.1)` is modelled as
`none`; otherwise the two nested loops write every pixel with `List.set` at
index `row * bounds.0 + column` and the final buffer is returned. -/
def render (pixels : List ℕ) (bounds : ℕ × ℕ)
    (upper_left lower_right : Cx) : Option (List ℕ) :=
  if pixels.length = bounds.1 * bounds.2 then
    some ((List.range bounds.2).foldl
      (fun buf row =>
        (List.range bounds.1).foldl
          (fun buf2 col =>
            buf2.set (row * bounds.1 + col)
              (intensityAt (pixel_to_point bounds (col, row) upper_left lower_right)))
          buf)
      pixels)
  else none

/-- Fuelled worker for `chunks`; the fuel only bounds the recursion depth and
any fuel at least the number of chunks (e.g. the list length, for a nonzero
chunk size) yields slice-`chunks` behaviour: successive sub-lists of `n`
elements, the last one possibly shorter, and no empty chunk. -/
def chunksAux {α : Type} (n : ℕ) : ℕ → List α → List (List α)
  | _, [] => []
  | 0, _ => []
  | fuel + 1, l => l.take n :: chunksAux n fuel (l.drop n)

/-- Embeds `slice::chunks_mut(n)`: `none` models the panic on chunk size `0`. -/
def chunks {α : Type} (n : ℕ) (l : List α) : Option (List (List α)) :=
  if n = 0 then none else some (chunksAux n l.length l)

/-- The spawn/join region of `run_parallelly`: band `i` (at row offset
`rows_per_band * i`) is rendered against its own sub-rectangle, computed by
`pixel_to_point` on the full bounds, exactly as in the source; a band whose
`render` would panic makes the whole region fail (`crossbeam::scope(..).unwrap()`).
The rendered bands are returned in buffer order, concatenated. -/
def renderBands (bounds : ℕ × ℕ) (upper_left lower_right : Cx)
    (rows_per_band : ℕ) : ℕ → List (List ℕ) → Option (List ℕ)
  | _, [] => some []
  | i, band :: rest =>
    let width := bounds.1
    let top := rows_per_band * i
    let height := band.length / width
    let band_bounds := (width, height)
    let band_upper_left := pixel_to_point bounds (0, top) upper_left lower_right
    let band_lower_right :=
      pixel_to_point bounds (width, top + height) upper_left lower_right
    match render band band_bounds band_upper_left band_lower_right,
          renderBands bounds upper_left lower_right rows_per_band (i + 1) rest with
    | some b, some bs => some (b ++ bs)
    | _, _ => none

/-- Embeds `fn run_sequentially`: allocate `vec![0; width * height]` and `render` it
(the PNG encoding is outside the model; the produced buffer is the result). -/
def run_sequentially (bounds : ℕ × ℕ) (upper_left lower_right : Cx) :
    Option (List ℕ) :=
  render (List.replicate (bounds.1 * bounds.2) 0) bounds upper_left lower_right

/-- Embeds `fn run_parallelly`, generalised over the `threads` constant (the source
pins `let threads: usize = 8`, see `run_parallelly`):
`rows_per_band = height / threads + 1`, the buffer is split by
`chunks_mut(rows_per_band * width)`, and every band is rendered against its
sub-rectangle.  `threads = 0` would make `height / threads` panic in Rust, so
the claims only consider positive thread counts. -/
def run_parallelly_with (threads : ℕ) (bounds : ℕ × ℕ)
    (upper_left lower_right : Cx) : Option (List ℕ) :=
  let width := bounds.1
  let height := bounds.2
  let pixels : List ℕ := List.replicate (width * height) 0
  let rows_per_band := height / threads + 1
  match chunks (rows_per_band * width) pixels with
  | none => none
  | some bands => renderBands bounds upper_left lower_right rows_per_band 0 bands

/-- Embeds `fn run_parallelly` with the fixed source value `threads = 8`. -/
def run_parallelly (bounds : ℕ × ℕ) (upper_left lower_right : Cx) :
    Option (List ℕ) :=
  run_parallelly_with 8 bounds upper_left lower_right

/-- The row-bands `run_parallelly_with` partitions the buffer into, before any
rendering: `pixels.chunks_mut(rows_per_band * width)`. -/
def bandsOf (threads : ℕ) (bounds : ℕ × ℕ) : Option (List (List ℕ)) :=
  chunks ((bounds.2 / threads + 1) * bounds.1)
    (List.replicate (bounds.1 * bounds.2) (0 : ℕ))

/-- Embeds `fn parse_pair<T: FromStr>(s: &str, separator: char) -> Option<(T, T)>`,
parametric in `T::from_str` (strings are `List Char`; for the ASCII
separators used by the program, the byte index from `str::find` is the character
index). -/
def parse_pair {T : Type} (from_str : List Char → Option T)
    (s : List Char) (separator : Char) : Option (T × T) :=
  match s.findIdx? (· = separator) with
  | none => none
  | some index =>
    match from_str (s.take index), from_str (s.drop (index + 1)) with
    | some l, some r => some (l, r)
    | _, _ => none

/-- Numeric value of a list of decimal digits. -/
def digitsVal (l : List Char) : ℕ :=
  l.foldl (fun n c => n * 10 + (c.toNat - 48)) 0

/-- Models `u64::from_str` (the `T::from_str` instance behind
`parse_pair::<u64>`) on plain decimal-digit strings: rejects the empty string
and any non-digit character. -/
def parseNat (s : List Char) : Option ℕ :=
  if s ≠ [] ∧ s.all (·.isDigit) then some (digitsVal s) else none

/-- Models the unsigned part of `f64::from_str` on plain decimal literals
`digits[.digits]` (no exponent): rejects the empty string and any other
character.  On the test values of the program every literal is a dyadic rational
represented exactly by `f64`, so the exact rational value is the one `f64`
parsing produces. -/
def parseDecUnsigned (s : List Char) : Option ℚ :=
  let intPart := s.takeWhile (·.isDigit)
  let rest := s.dropWhile (·.isDigit)
  match rest with
  | [] => if intPart = [] then none else some ((digitsVal intPart : ℚ))
  | '.' :: frac =>
    if (intPart ≠ [] ∨ frac ≠ []) ∧ frac.all (·.isDigit) then
      some ((digitsVal intPart : ℚ) + (digitsVal frac : ℚ) / (10 : ℚ) ^ frac.length)
    else none
  | _ => none

/-- Models `f64::from_str` on plain decimal literals with an optional sign. -/
def parseDec (s : List Char) : Option ℚ :=
  match s with
  | [] => none
  | c :: rest =>
    if c = '-' then (parseDecUnsigned rest).map (fun q => -q)
    else if c = '+' then parseDecUnsigned rest
    else parseDecUnsigned s

/-- Embeds `fn parse_complex(s: &str) -> Option<Complex<f64>>`. -/
def parse_complex (s : List Char) : Option Cx :=
  match parse_pair parseDec s CMD_ARG_COMPLEX_NUMBER_SEPARATOR with
  | none => none
  | some (re, im) => some ⟨re, im⟩

/-- The row of intensities the renderer computes for one row of pixels. -/
def rowPixels (bounds : ℕ × ℕ) (ul lr : Cx) (row : ℕ) : List ℕ :=
  (List.range bounds.1).map fun col => intensityAt (pixel_to_point bounds (col, row) ul lr)

/-- The sizes of the successive chunks `chunksAux n fuel` cuts a list of
length `m` into: `min n m` elements, then the chunks of the remaining
`m - n`. -/
def bandSizes (n : ℕ) : ℕ → ℕ → List ℕ
  | _, 0 => []
  | 0, _ => []
  | fuel + 1, m => min n m :: bandSizes n fuel (m - n)

/-!
### Bit-accurate IEEE binary64 model

The `Cx` embedding above idealises `f64` by exact rational arithmetic; that
is faithful for every loop-structural and integer-level property, and for
every concrete value those claims touch (all exactly representable).  The
byte-identity of the two renderers, however, genuinely depends on `f64`
rounding: the band corners are rounded values, and re-interpolating inside a
band does not round-trip exactly.  The following model computes IEEE
binary64 arithmetic bit-accurately on the normal range: a value is an
unnormalised scaled integer `m * 2 ^ e`, and every operation rounds its
exact rational result to 53 significant bits, round to nearest, ties to
even — exactly the IEEE result as long as no overflow, underflow to
subnormals, infinity or NaN occurs (none occurs in the computations
evaluated here, whose magnitudes stay between roughly `2 ^ -60` and
`2 ^ 4`).
-/

/-- Bit-accurate IEEE binary64 value on the normal range: the real number
`m * 2 ^ e`.  The representation is not normalised; all operations round
through `fround`, and only the represented value matters. -/
structure F64 where
  m : ℤ
  e : ℤ
deriving DecidableEq, Repr

/-- Number of binary digits of `n`, by fuel (any fuel at least `n` works). -/
def bitLenAux : ℕ → ℕ → ℕ
  | 0, _ => 0
  | fuel + 1, n => if n = 0 then 0 else bitLenAux fuel (n / 2) + 1

/-- Number of binary digits of `n`. -/
def bitLen (n : ℕ) : ℕ := bitLenAux n n

/-- Round the positive real `(n / d) * 2 ^ e` (`n, d > 0`) to 53 significant
bits, round to nearest, ties to even: scale `n` so the integer quotient by
`d` carries at least 56 bits, split off everything below the top 53 bits,
and round on the guard value plus a sticky remainder. -/
def froundPos (n d : ℕ) (e : ℤ) : ℕ × ℤ :=
  let s : ℕ := 56 + bitLen d
  let q : ℕ := n * 2 ^ s / d
  let r : ℕ := n * 2 ^ s % d
  let shift : ℕ := bitLen q - 53
  let keep : ℕ := q / 2 ^ shift
  let low : ℕ := q % 2 ^ shift
  let half : ℕ := 2 ^ (shift - 1)
  let keep2 : ℕ :=
    if half < low then keep + 1
    else if low < half then keep
    else if r ≠ 0 then keep + 1
    else if keep % 2 = 1 then keep + 1
    else keep
  let e2 : ℤ := e - (s : ℤ) + (shift : ℤ)
  if keep2 = 2 ^ 53 then (2 ^ 52, e2 + 1) else (keep2, e2)

/-- Round the real `(m / d) * 2 ^ e` to an `F64` (round to nearest, ties to
even, which is symmetric in the sign). -/
def fround (m : ℤ) (d : ℕ) (e : ℤ) : F64 :=
  if m = 0 then ⟨0, 0⟩
  else if 0 < m then
    let p := froundPos m.toNat d e
    ⟨(p.1 : ℤ), p.2⟩
  else
    let p := froundPos (-m).toNat d e
    ⟨-(p.1 : ℤ), p.2⟩

/-- IEEE binary64 addition: exact sum at the common exponent, then round. -/
def F64.add (a b : F64) : F64 :=
  let e := min a.e b.e
  fround (a.m * 2 ^ (a.e - e).toNat + b.m * 2 ^ (b.e - e).toNat) 1 e

/-- IEEE binary64 subtraction: exact difference, then round. -/
def F64.sub (a b : F64) : F64 :=
  let e := min a.e b.e
  fround (a.m * 2 ^ (a.e - e).toNat - b.m * 2 ^ (b.e - e).toNat) 1 e

/-- IEEE binary64 multiplication: exact product, then round. -/
def F64.mul (a b : F64) : F64 :=
  fround (a.m * b.m) 1 (a.e + b.e)

/-- IEEE binary64 division: round the exact quotient. -/
def F64.div (a b : F64) : F64 :=
  fround (if b.m < 0 then -a.m else a.m) b.m.natAbs (a.e - b.e)

/-- Value comparison of two doubles (`a < b`). -/
def F64.blt (a b : F64) : Bool :=
  decide (a.m * 2 ^ (a.e - min a.e b.e).toNat < b.m * 2 ^ (b.e - min a.e b.e).toNat)

/-- Complex number over bit-accurate doubles, as `num::Complex<f64>`. -/
structure CxF where
  re : F64
  im : F64
deriving DecidableEq, Repr

/-- Componentwise `f64` complex addition. -/
def CxF.add (a b : CxF) : CxF :=
  ⟨F64.add a.re b.re, F64.add a.im b.im⟩

/-- The `num` crate complex multiplication, each operation rounded. -/
def CxF.mul (a b : CxF) : CxF :=
  ⟨F64.sub (F64.mul a.re b.re) (F64.mul a.im b.im),
   F64.add (F64.mul a.re b.im) (F64.mul a.im b.re)⟩

/-- Embeds `Complex::norm_sqr` over bit-accurate doubles. -/
def CxF.normSqr (z : CxF) : F64 :=
  F64.add (F64.mul z.re z.re) (F64.mul z.im z.im)

/-- The `f64` literal 4.0 (`LIMIT_TO_CALL_IT_OFF_TO_INFINITY`). -/
def fLimitToInfinity : F64 := ⟨4, 0⟩

/-- The loop of `escape_time` over bit-accurate doubles (same structure as
`escapeGo`). -/
def fescapeGo (c : CxF) : CxF → ℕ → ℕ → Option ℕ
  | _, _, 0 => none
  | z, i, fuel + 1 =>
    if F64.blt fLimitToInfinity (CxF.normSqr z) then some i
    else fescapeGo c (CxF.add (CxF.mul z z) c) (i + 1) fuel

/-- Embeds `fn escape_time` over bit-accurate doubles. -/
def fescape_time (c : CxF) (limit : ℕ) : Option ℕ :=
  fescapeGo c ⟨⟨0, 0⟩, ⟨0, 0⟩⟩ 0 limit

/-- Embeds `fn pixel_to_point` over bit-accurate doubles; the `usize as f64`
casts are exact for the sizes involved. -/
def fpixel_to_point (bounds : ℕ × ℕ) (pixel : ℕ × ℕ) (ul lr : CxF) : CxF :=
  let width := F64.sub lr.re ul.re
  let height := F64.sub ul.im lr.im
  ⟨F64.add ul.re (F64.mul ⟨(pixel.1 : ℤ), 0⟩ (F64.div width ⟨(bounds.1 : ℤ), 0⟩)),
   F64.sub ul.im (F64.mul ⟨(pixel.2 : ℤ), 0⟩ (F64.div height ⟨(bounds.2 : ℤ), 0⟩))⟩

/-- The byte written for one pixel, over bit-accurate doubles. -/
def fintensityAt (point : CxF) : ℕ :=
  match fescape_time point LIMIT_OF_ITERATION with
  | none => 0
  | some count => (LIMIT_OF_ITERATION - count) % 256

/-- Embeds `fn render` over bit-accurate doubles (same structure as
`render`). -/
def frender (pixels : List ℕ) (bounds : ℕ × ℕ) (ul lr : CxF) : Option (List ℕ) :=
  if pixels.length = bounds.1 * bounds.2 then
    some ((List.range bounds.2).foldl
      (fun buf row =>
        (List.range bounds.1).foldl
          (fun buf2 col =>
            buf2.set (row * bounds.1 + col)
              (fintensityAt (fpixel_to_point bounds (col, row) ul lr)))
          buf)
      pixels)
  else none

/-- The spawn/join region of `run_parallelly`, over bit-accurate doubles
(same structure as `renderBands`). -/
def frenderBands (bounds : ℕ × ℕ) (ul lr : CxF) (rows_per_band : ℕ) :
    ℕ → List (List ℕ) → Option (List ℕ)
  | _, [] => some []
  | i, band :: rest =>
    let width := bounds.1
    let top := rows_per_band * i
    let height := band.length / width
    match frender band (width, height)
            (fpixel_to_point bounds (0, top) ul lr)
            (fpixel_to_point bounds (width, top + height) ul lr),
          frenderBands bounds ul lr rows_per_band (i + 1) rest with
    | some b, some bs => some (b ++ bs)
    | _, _ => none

/-- Embeds `fn run_sequentially` over bit-accurate doubles. -/
def frun_sequentially (bounds : ℕ × ℕ) (ul lr : CxF) : Option (List ℕ) :=
  frender (List.replicate (bounds.1 * bounds.2) 0) bounds ul lr

/-- Embeds `fn run_parallelly` over bit-accurate doubles, with the fixed
source value `threads = 8`. -/
def frun_parallelly (bounds : ℕ × ℕ) (ul lr : CxF) : Option (List ℕ) :=
  let pixels : List ℕ := List.replicate (bounds.1 * bounds.2) 0
  let rows_per_band := bounds.2 / 8 + 1
  match chunks (rows_per_band * bounds.1) pixels with
  | none => none
  | some bands => frenderBands bounds ul lr rows_per_band 0 bands

/-! ### The escape-time loop -/

theorem Cx.add_def (a b : Cx) : a + b = ⟨a.re + b.re, a.im + b.im⟩ := rfl

theorem Cx.mul_def (a b : Cx) :
    a * b = ⟨a.re * b.re - a.im * b.im, a.re * b.im + a.im * b.re⟩ := rfl

theorem zIter_succ (c : Cx) (k : ℕ) : zIter c (k + 1) = zIter c k * zIter c k + c := rfl

theorem escapeGo_zero (c z : Cx) (i : ℕ) : escapeGo c z i 0 = none := rfl

theorem escapeGo_succ (c z : Cx) (i fuel : ℕ) :
    escapeGo c z i (fuel + 1) =
      if LIMIT_TO_CALL_IT_OFF_TO_INFINITY < z.normSqr then some i
      else escapeGo c (z * z + c) (i + 1) fuel := rfl

theorem escapeGo_none_iff (c : Cx) : ∀ (fuel k : ℕ),
    escapeGo c (zIter c k) k fuel = none ↔
      ∀ l, k ≤ l → l < k + fuel →
        ¬ LIMIT_TO_CALL_IT_OFF_TO_INFINITY < (zIter c l).normSqr := by
  intro fuel
  induction fuel with
  | zero =>
    intro k
    constructor
    · intro _ l h1 h2
      omega
    · intro _
      rfl
  | succ fuel ih =>
    intro k
    rw [escapeGo_succ]
    by_cases h : LIMIT_TO_CALL_IT_OFF_TO_INFINITY < (zIter c k).normSqr
    · rw [if_pos h]
      constructor
      · intro hs
        exact absurd hs (Option.some_ne_none k)
      · intro hall
        exact absurd h (hall k le_rfl (by omega))
    · rw [if_neg h, ← zIter_succ, ih (k + 1)]
      constructor
      · intro hall l h1 h2
        rcases eq_or_lt_of_le h1 with rfl | hlt
        · exact h
        · exact hall l hlt (by omega)
      · intro hall l h1 h2
        exact hall l (by omega) (by omega)

theorem escapeGo_some_iff (c : Cx) : ∀ (fuel k j : ℕ),
    escapeGo c (zIter c k) k fuel = some j ↔
      (k ≤ j ∧ j < k + fuel ∧ LIMIT_TO_CALL_IT_OFF_TO_INFINITY < (zIter c j).normSqr ∧
       ∀ l, k ≤ l → l < j → ¬ LIMIT_TO_CALL_IT_OFF_TO_INFINITY < (zIter c l).normSqr) := by
  intro fuel
  induction fuel with
  | zero =>
    intro k j
    constructor
    · intro h
      exact absurd h (by rw [escapeGo_zero]; exact fun h => Option.noConfusion h)
    · rintro ⟨h1, h2, -⟩
      omega
  | succ fuel ih =>
    intro k j
    rw [escapeGo_succ]
    by_cases h : LIMIT_TO_CALL_IT_OFF_TO_INFINITY < (zIter c k).normSqr
    · rw [if_pos h]
      constructor
      · intro hs
        have hkj : k = j := Option.some.inj hs
        subst hkj
        exact ⟨le_rfl, by omega, h, fun l h1 h2 => by omega⟩
      · rintro ⟨h1, h2, h3, h4⟩
        have hjk : j = k := by
          by_contra hne
          exact h4 k le_rfl (lt_of_le_of_ne h1 (Ne.symm hne)) h
        rw [hjk]
    · rw [if_neg h, ← zIter_succ, ih (k + 1)]
      constructor
      · rintro ⟨h1, h2, h3, h4⟩
        refine ⟨by omega, by omega, h3, fun l hl1 hl2 => ?_⟩
        rcases eq_or_lt_of_le hl1 with rfl | hlt
        · exact h
        · exact h4 l hlt hl2
      · rintro ⟨h1, h2, h3, h4⟩
        refine ⟨?_, by omega, h3, fun l hl1 hl2 => h4 l (by omega) hl2⟩
        rcases eq_or_lt_of_le h1 with rfl | hlt
        · exact absurd h3 h
        · omega

theorem escape_time_some_iff (c : Cx) (limit j : ℕ) :
    escape_time c limit = some j ↔
      (j < limit ∧ LIMIT_TO_CALL_IT_OFF_TO_INFINITY < (zIter c j).normSqr ∧
       ∀ l, l < j → ¬ LIMIT_TO_CALL_IT_OFF_TO_INFINITY < (zIter c l).normSqr) := by
  have h0 : (⟨0, 0⟩ : Cx) = zIter c 0 := rfl
  rw [escape_time, h0, escapeGo_some_iff]
  constructor
  · rintro ⟨-, h2, h3, h4⟩
    exact ⟨by omega, h3, fun l hl => h4 l (Nat.zero_le l) hl⟩
  · rintro ⟨h1, h2, h3⟩
    exact ⟨Nat.zero_le j, by omega, h2, fun l _ hl => h3 l hl⟩

theorem escape_time_none_iff (c : Cx) (limit : ℕ) :
    escape_time c limit = none ↔
      ∀ l, l < limit → ¬ LIMIT_TO_CALL_IT_OFF_TO_INFINITY < (zIter c l).normSqr := by
  have h0 : (⟨0, 0⟩ : Cx) = zIter c 0 := rfl
  rw [escape_time, h0, escapeGo_none_iff]
  constructor
  · intro hall l hl
    exact hall l (Nat.zero_le l) (by omega)
  · intro hall l _ hl
    exact hall l (by omega)

theorem normSqr_zIter_zero (c : Cx) : (zIter c 0).normSqr = 0 := by
  show ((⟨0, 0⟩ : Cx)).normSqr = 0
  simp [Cx.normSqr]

theorem zIter_one (c : Cx) : zIter c 1 = c := by
  rcases c with ⟨a, b⟩
  rw [zIter_succ]
  show (⟨0, 0⟩ : Cx) * ⟨0, 0⟩ + ⟨a, b⟩ = ⟨a, b⟩
  rw [Cx.mul_def, Cx.add_def]
  simp

theorem zIter_origin (l : ℕ) : zIter ⟨0, 0⟩ l = ⟨0, 0⟩ := by
  induction l with
  | zero => rfl
  | succ l ih =>
    rw [zIter_succ, ih, Cx.mul_def, Cx.add_def]
    simp

theorem escape_time_five : escape_time ⟨5, 5⟩ LIMIT_OF_ITERATION = some 1 := by
  rw [escape_time_some_iff]
  refine ⟨by norm_num [LIMIT_OF_ITERATION], ?_, ?_⟩
  · rw [zIter_one]
    norm_num [Cx.normSqr, LIMIT_TO_CALL_IT_OFF_TO_INFINITY]
  · intro l hl
    have hl0 : l = 0 := by omega
    subst hl0
    rw [normSqr_zIter_zero]
    norm_num [LIMIT_TO_CALL_IT_OFF_TO_INFINITY]

/-! ### The sequential render loop -/

theorem rowPixels_length (bounds : ℕ × ℕ) (ul lr : Cx) (row : ℕ) :
    (rowPixels bounds ul lr row).length = bounds.1 := by
  simp [rowPixels]

theorem flatMap_rowPixels_length (bounds : ℕ × ℕ) (ul lr : Cx) (r : ℕ) :
    ((List.range r).flatMap (rowPixels bounds ul lr)).length = r * bounds.1 := by
  induction r with
  | zero => simp
  | succ r ih =>
    rw [List.range_succ, List.flatMap_append, List.length_append, ih]
    simp [rowPixels, Nat.succ_mul]

theorem foldl_set_range (f : ℕ → ℕ) : ∀ (w : ℕ) (l : List ℕ) (base : ℕ),
    base + w ≤ l.length →
      (List.range w).foldl (fun buf col => buf.set (base + col) (f col)) l =
        l.take base ++ (List.range w).map f ++ l.drop (base + w) := by
  intro w
  induction w with
  | zero =>
    intro l base h
    simp
  | succ w ih =>
    intro l base h
    rw [List.range_succ, List.foldl_append, ih l base (by omega)]
    simp only [List.foldl_cons, List.foldl_nil]
    have hbase : (l.take base).length = base := by
      rw [List.length_take]
      omega
    have hmaplen : ((List.range w).map f).length = w := by
      simp
    rw [List.append_assoc, List.set_append, hbase, if_neg (by omega),
      Nat.add_sub_cancel_left, List.set_append, hmaplen, if_neg (by omega),
      Nat.sub_self, List.drop_eq_getElem_cons (show base + w < l.length by omega)]
    simp only [List.set_cons_zero]
    have hidx : base + (w + 1) = base + w + 1 := by omega
    rw [hidx]
    simp [List.map_append, List.append_assoc]

theorem render_loop (bounds : ℕ × ℕ) (ul lr : Cx) (pixels : List ℕ)
    (hlen : pixels.length = bounds.1 * bounds.2) :
    ∀ r, r ≤ bounds.2 →
      (List.range r).foldl
          (fun buf row =>
            (List.range bounds.1).foldl
              (fun buf2 col =>
                buf2.set (row * bounds.1 + col)
                  (intensityAt (pixel_to_point bounds (col, row) ul lr)))
              buf)
          pixels =
        (List.range r).flatMap (rowPixels bounds ul lr) ++ pixels.drop (r * bounds.1) := by
  intro r
  induction r with
  | zero =>
    intro _
    simp
  | succ r ih =>
    intro hr
    rw [List.range_succ, List.foldl_append, ih (by omega)]
    simp only [List.foldl_cons, List.foldl_nil]
    have hflen :
        ((List.range r).flatMap (rowPixels bounds ul lr)).length = r * bounds.1 :=
      flatMap_rowPixels_length bounds ul lr r
    have hmul : (r + 1) * bounds.1 ≤ bounds.1 * bounds.2 := by
      calc (r + 1) * bounds.1 ≤ bounds.2 * bounds.1 := Nat.mul_le_mul_right _ (by omega)
        _ = bounds.1 * bounds.2 := Nat.mul_comm _ _
    have hle : r * bounds.1 + bounds.1 ≤
        ((List.range r).flatMap (rowPixels bounds ul lr) ++
          pixels.drop (r * bounds.1)).length := by
      rw [List.length_append, hflen, List.length_drop, hlen]
      have h1 : (r + 1) * bounds.1 = r * bounds.1 + bounds.1 := Nat.succ_mul r bounds.1
      omega
    rw [foldl_set_range (fun col => intensityAt (pixel_to_point bounds (col, r) ul lr))
      bounds.1 _ (r * bounds.1) hle]
    rw [List.take_left' hflen]
    have hdrop :
        ((List.range r).flatMap (rowPixels bounds ul lr) ++
            pixels.drop (r * bounds.1)).drop (r * bounds.1 + bounds.1) =
          pixels.drop ((r + 1) * bounds.1) := by
      rw [← hflen, List.drop_append, List.drop_drop, hflen, ← Nat.succ_mul]
    rw [hdrop]
    simp [List.flatMap_append, rowPixels, List.append_assoc]

theorem render_eq (pixels : List ℕ) (bounds : ℕ × ℕ) (ul lr : Cx)
    (hlen : pixels.length = bounds.1 * bounds.2) :
    render pixels bounds ul lr =
      some ((List.range bounds.2).flatMap (rowPixels bounds ul lr)) := by
  rw [render, if_pos hlen, render_loop bounds ul lr pixels hlen bounds.2 le_rfl]
  have hnil : pixels.drop (bounds.2 * bounds.1) = [] := by
    rw [List.drop_eq_nil_iff]
    rw [hlen]
    exact le_of_eq (Nat.mul_comm _ _)
  rw [hnil, List.append_nil]

theorem render_none (pixels : List ℕ) (bounds : ℕ × ℕ) (ul lr : Cx)
    (h : pixels.length ≠ bounds.1 * bounds.2) :
    render pixels bounds ul lr = none := by
  rw [render, if_neg h]

/-! ### Band sub-rectangles tile the plane rectangle exactly -/

theorem band_point (bounds : ℕ × ℕ) (ul lr : Cx) (top bh : ℕ)
    (hw : 0 < bounds.1) (hh : 0 < bounds.2) (hbh : 0 < bh) (col r : ℕ) :
    pixel_to_point (bounds.1, bh) (col, r)
        (pixel_to_point bounds (0, top) ul lr)
        (pixel_to_point bounds (bounds.1, top + bh) ul lr) =
      pixel_to_point bounds (col, top + r) ul lr := by
  have hw' : ((bounds.1 : ℚ)) ≠ 0 := Nat.cast_ne_zero.mpr (by omega)
  have hh' : ((bounds.2 : ℚ)) ≠ 0 := Nat.cast_ne_zero.mpr (by omega)
  have hbh' : ((bh : ℚ)) ≠ 0 := Nat.cast_ne_zero.mpr (by omega)
  simp only [pixel_to_point, Cx.mk.injEq]
  constructor
  · push_cast
    field_simp
    try ring
  · push_cast
    field_simp
    try ring

theorem band_row (bounds : ℕ × ℕ) (ul lr : Cx) (top bh : ℕ)
    (hw : 0 < bounds.1) (hh : 0 < bounds.2) (hbh : 0 < bh) (r : ℕ) :
    rowPixels (bounds.1, bh)
        (pixel_to_point bounds (0, top) ul lr)
        (pixel_to_point bounds (bounds.1, top + bh) ul lr) r =
      rowPixels bounds ul lr (top + r) := by
  simp only [rowPixels]
  exact List.map_congr_left fun col _ => by
    rw [band_point bounds ul lr top bh hw hh hbh col r]

theorem chunksAux_cons {α : Type} (n fuel : ℕ) (a : α) (l : List α) :
    chunksAux n (fuel + 1) (a :: l) =
      (a :: l).take n :: chunksAux n fuel ((a :: l).drop n) := rfl

theorem chunksAux_replicate_pos {α : Type} (n fuel m : ℕ) (x : α) (hm : 0 < m) :
    chunksAux n (fuel + 1) (List.replicate m x) =
      List.replicate (min n m) x :: chunksAux n fuel (List.replicate (m - n) x) := by
  obtain ⟨k, rfl⟩ : ∃ k, m = k + 1 := ⟨m - 1, by omega⟩
  rw [List.replicate_succ, chunksAux_cons, ← List.replicate_succ,
    List.take_replicate, List.drop_replicate]

theorem renderBands_cons (bounds : ℕ × ℕ) (ul lr : Cx) (rpb i : ℕ)
    (band : List ℕ) (rest : List (List ℕ)) :
    renderBands bounds ul lr rpb i (band :: rest) =
      match render band (bounds.1, band.length / bounds.1)
              (pixel_to_point bounds (0, rpb * i) ul lr)
              (pixel_to_point bounds (bounds.1, rpb * i + band.length / bounds.1) ul lr),
            renderBands bounds ul lr rpb (i + 1) rest with
      | some b, some bs => some (b ++ bs)
      | _, _ => none := rfl

theorem renderBands_eq (bounds : ℕ × ℕ) (ul lr : Cx) (rpb : ℕ)
    (hw : 0 < bounds.1) (hh : 0 < bounds.2) (hrpb : 0 < rpb) :
    ∀ (fuel m i : ℕ), m ≤ fuel →
      renderBands bounds ul lr rpb i
          (chunksAux (rpb * bounds.1) fuel (List.replicate (bounds.1 * m) 0)) =
        some ((List.range' (rpb * i) m).flatMap (rowPixels bounds ul lr)) := by
  intro fuel
  induction fuel with
  | zero =>
    intro m i hm
    have hm0 : m = 0 := by omega
    subst hm0
    simp [chunksAux, renderBands]
  | succ fuel ih =>
    intro m i hm
    rcases Nat.eq_zero_or_pos m with hm0 | hmpos
    · subst hm0
      simp [chunksAux, renderBands]
    · -- the buffer is non-empty, so the first chunk splits off
      have hwm : 0 < bounds.1 * m := Nat.mul_pos hw hmpos
      rw [chunksAux_replicate_pos _ fuel _ (0 : ℕ) hwm]
      have hmin : min (rpb * bounds.1) (bounds.1 * m) = bounds.1 * min rpb m := by
        rw [Nat.mul_comm rpb bounds.1, Nat.mul_min_mul_left]
      have hsub : bounds.1 * m - rpb * bounds.1 = bounds.1 * (m - rpb) := by
        rw [Nat.mul_comm rpb bounds.1, ← Nat.mul_sub_left_distrib]
      rw [hmin, hsub, renderBands_cons]
      have hbandlen : (List.replicate (bounds.1 * min rpb m) (0 : ℕ)).length =
          bounds.1 * min rpb m := List.length_replicate _ _
      have hheight : (List.replicate (bounds.1 * min rpb m) (0 : ℕ)).length / bounds.1 =
          min rpb m := by
        rw [hbandlen, Nat.mul_div_cancel_left _ hw]
      have hbh : 0 < min rpb m := lt_min_iff.mpr ⟨hrpb, hmpos⟩
      have hrender : render (List.replicate (bounds.1 * min rpb m) (0 : ℕ))
            (bounds.1, min rpb m)
            (pixel_to_point bounds (0, rpb * i) ul lr)
            (pixel_to_point bounds (bounds.1, rpb * i + min rpb m) ul lr) =
          some ((List.range' (rpb * i) (min rpb m)).flatMap (rowPixels bounds ul lr)) := by
        rw [render_eq _ _ _ _ (by rw [hbandlen])]
        have hrows : rowPixels (bounds.1, min rpb m)
              (pixel_to_point bounds (0, rpb * i) ul lr)
              (pixel_to_point bounds (bounds.1, rpb * i + min rpb m) ul lr) =
            fun r' => rowPixels bounds ul lr (rpb * i + r') :=
          funext fun r' => band_row bounds ul lr (rpb * i) (min rpb m) hw hh hbh r'
        rw [hrows, List.range'_eq_map_range, List.flatMap_map]
      rw [hheight, hrender, ih (m - rpb) (i + 1) (by omega)]
      show some (_ ++ _) = _
      congr 1
      rw [← List.flatMap_append]
      congr 1
      rcases le_or_lt m rpb with hle | hlt
      · have h1 : min rpb m = m := min_eq_right hle
        have h2 : m - rpb = 0 := by omega
        rw [h1, h2]
        simp
      · have h1 : min rpb m = rpb := min_eq_left (le_of_lt hlt)
        have happ := List.range'_append (rpb * i) rpb (m - rpb) 1
        rw [h1, Nat.mul_succ]
        rw [show rpb * i + rpb = rpb * i + 1 * rpb by omega]
        rw [happ, Nat.sub_add_cancel (le_of_lt hlt)]

theorem run_sequentially_eq (bounds : ℕ × ℕ) (ul lr : Cx) :
    run_sequentially bounds ul lr =
      some ((List.range bounds.2).flatMap (rowPixels bounds ul lr)) :=
  render_eq _ _ _ _ (List.length_replicate _ _)

theorem run_parallelly_with_eq (threads : ℕ) (bounds : ℕ × ℕ) (ul lr : Cx)
    (hw : 0 < bounds.1) (hh : 0 < bounds.2) :
    run_parallelly_with threads bounds ul lr =
      some ((List.range bounds.2).flatMap (rowPixels bounds ul lr)) := by
  have hn : (bounds.2 / threads + 1) * bounds.1 ≠ 0 :=
    Nat.mul_ne_zero (Nat.succ_ne_zero _) (by omega)
  have hmain := renderBands_eq bounds ul lr (bounds.2 / threads + 1) hw hh
    (Nat.succ_pos _) (bounds.1 * bounds.2) bounds.2 0
    (Nat.le_mul_of_pos_left bounds.2 hw)
  rw [Nat.mul_zero] at hmain
  show (match chunks ((bounds.2 / threads + 1) * bounds.1)
          (List.replicate (bounds.1 * bounds.2) (0 : ℕ)) with
        | none => none
        | some bands => renderBands bounds ul lr (bounds.2 / threads + 1) 0 bands) =
      some ((List.range bounds.2).flatMap (rowPixels bounds ul lr))
  simp only [chunks, if_neg hn, List.length_replicate]
  show renderBands bounds ul lr (bounds.2 / threads + 1) 0
      (chunksAux ((bounds.2 / threads + 1) * bounds.1) (bounds.1 * bounds.2)
        (List.replicate (bounds.1 * bounds.2) 0)) = _
  rw [hmain, ← List.range_eq_range']

/-! ### Sizes of the chunks -/

theorem bandSizes_fuel_zero (n m : ℕ) : bandSizes n 0 m = [] := by
  cases m <;> rfl

theorem bandSizes_zero_m (n fuel : ℕ) : bandSizes n fuel 0 = [] := by
  cases fuel <;> rfl

theorem bandSizes_succ (n fuel m : ℕ) (hm : 0 < m) :
    bandSizes n (fuel + 1) m = min n m :: bandSizes n fuel (m - n) := by
  obtain ⟨k, rfl⟩ : ∃ k, m = k + 1 := ⟨m - 1, by omega⟩
  rfl

theorem chunksAux_replicate {α : Type} (n : ℕ) (x : α) : ∀ (fuel m : ℕ),
    chunksAux n fuel (List.replicate m x) =
      (bandSizes n fuel m).map (fun k => List.replicate k x) := by
  intro fuel
  induction fuel with
  | zero =>
    intro m
    cases m with
    | zero => rfl
    | succ k => rfl
  | succ fuel ih =>
    intro m
    rcases Nat.eq_zero_or_pos m with rfl | hm
    · rfl
    · rw [chunksAux_replicate_pos n fuel m x hm, bandSizes_succ n fuel m hm,
        List.map_cons, ih]

theorem bandSizes_sum (n : ℕ) (hn : 0 < n) : ∀ (fuel m : ℕ), m ≤ fuel →
    (bandSizes n fuel m).sum = m := by
  intro fuel
  induction fuel with
  | zero =>
    intro m hm
    have hm0 : m = 0 := by omega
    subst hm0
    rfl
  | succ fuel ih =>
    intro m hm
    rcases Nat.eq_zero_or_pos m with rfl | hmpos
    · rfl
    · rw [bandSizes_succ n fuel m hmpos, List.sum_cons, ih (m - n) (by omega)]
      omega

theorem bandSizes_mem (n : ℕ) (hn : 0 < n) : ∀ (fuel m : ℕ), ∀ k ∈ bandSizes n fuel m,
    0 < k ∧ k ≤ n := by
  intro fuel
  induction fuel with
  | zero =>
    intro m k hk
    rw [bandSizes_fuel_zero] at hk
    exact absurd hk (List.not_mem_nil k)
  | succ fuel ih =>
    intro m k hk
    rcases Nat.eq_zero_or_pos m with rfl | hmpos
    · rw [bandSizes_zero_m] at hk
      exact absurd hk (List.not_mem_nil k)
    · rw [bandSizes_succ n fuel m hmpos] at hk
      rcases List.mem_cons.mp hk with rfl | hk2
      · exact ⟨lt_min_iff.mpr ⟨hn, hmpos⟩, min_le_left _ _⟩
      · exact ih (m - n) k hk2

theorem bandSizes_length (n : ℕ) (hn : 0 < n) : ∀ (fuel m : ℕ), m ≤ fuel →
    (bandSizes n fuel m).length = (m + n - 1) / n := by
  intro fuel
  induction fuel with
  | zero =>
    intro m hm
    have hm0 : m = 0 := by omega
    subst hm0
    rw [bandSizes_fuel_zero]
    rw [show (0 : ℕ) + n - 1 = n - 1 by omega]
    rw [Nat.div_eq_of_lt (by omega)]
    rfl
  | succ fuel ih =>
    intro m hm
    rcases Nat.eq_zero_or_pos m with rfl | hmpos
    · rw [bandSizes_zero_m]
      rw [show (0 : ℕ) + n - 1 = n - 1 by omega]
      rw [Nat.div_eq_of_lt (by omega)]
      rfl
    · rw [bandSizes_succ n fuel m hmpos, List.length_cons, ih (m - n) (by omega)]
      rcases le_or_lt m n with hle | hlt
      · have h1 : m - n = 0 := by omega
        have h2 : (n - 1) / n = 0 := Nat.div_eq_of_lt (by omega)
        have h3 : (m + n - 1) / n = 1 := Nat.div_eq_of_lt_le (by omega) (by omega)
        rw [h1, show (0 : ℕ) + n - 1 = n - 1 by omega, h2, h3]
      · rw [show m - n + n - 1 = m - 1 - n + n by omega, Nat.add_div_right _ hn,
          show m + n - 1 = m - 1 - n + n + n by omega, Nat.add_div_right _ hn,
          Nat.add_div_right _ hn]

theorem bandSizes_getD (n : ℕ) : ∀ (fuel m i : ℕ),
    i < (bandSizes n fuel m).length →
      (bandSizes n fuel m).getD i 0 = min n (m - n * i) := by
  intro fuel
  induction fuel with
  | zero =>
    intro m i h
    rw [bandSizes_fuel_zero] at h
    exact absurd h (by simp)
  | succ fuel ih =>
    intro m i h
    rcases Nat.eq_zero_or_pos m with rfl | hmpos
    · rw [bandSizes_zero_m] at h
      exact absurd h (by simp)
    · rw [bandSizes_succ n fuel m hmpos] at h ⊢
      cases i with
      | zero => simp
      | succ i =>
        rw [List.getD_cons_succ, ih (m - n) i (by simpa using h)]
        congr 1
        rw [Nat.sub_sub, Nat.mul_succ, Nat.add_comm n (n * i)]

theorem bandSizes_init (n : ℕ) : ∀ (fuel m j : ℕ),
    j + 1 < (bandSizes n fuel m).length →
      (bandSizes n fuel m).getD j 0 = n := by
  intro fuel
  induction fuel with
  | zero =>
    intro m j h
    rw [bandSizes_fuel_zero] at h
    exact absurd h (by simp)
  | succ fuel ih =>
    intro m j h
    rcases Nat.eq_zero_or_pos m with rfl | hmpos
    · rw [bandSizes_zero_m] at h
      exact absurd h (by simp)
    · rw [bandSizes_succ n fuel m hmpos] at h ⊢
      cases j with
      | zero =>
        rw [List.getD_cons_zero]
        have htail : 0 < (bandSizes n fuel (m - n)).length := by
          simp only [List.length_cons] at h
          omega
        have hmn : 0 < m - n := by
          by_contra hc
          have h0 : m - n = 0 := by omega
          rw [h0, bandSizes_zero_m] at htail
          exact absurd htail (by simp)
        exact min_eq_left (by omega)
      | succ j =>
        rw [List.getD_cons_succ]
        exact ih (m - n) j (by simpa using h)

theorem bandSizes_mul (w n : ℕ) (hw : 0 < w) : ∀ (fuel m : ℕ),
    bandSizes (w * n) fuel (w * m) = (bandSizes n fuel m).map (fun k => w * k) := by
  intro fuel
  induction fuel with
  | zero =>
    intro m
    rw [bandSizes_fuel_zero, bandSizes_fuel_zero]
    rfl
  | succ fuel ih =>
    intro m
    rcases Nat.eq_zero_or_pos m with rfl | hmpos
    · rw [Nat.mul_zero, bandSizes_zero_m, bandSizes_zero_m]
      rfl
    · have hwm : 0 < w * m := Nat.mul_pos hw hmpos
      rw [bandSizes_succ _ fuel _ hwm, bandSizes_succ n fuel m hmpos, List.map_cons,
        Nat.mul_min_mul_left, ← Nat.mul_sub_left_distrib, ih]

theorem chunksAux_flatten {α : Type} (n : ℕ) (hn : 0 < n) : ∀ (fuel : ℕ) (l : List α),
    l.length ≤ fuel → (chunksAux n fuel l).flatten = l := by
  intro fuel
  induction fuel with
  | zero =>
    intro l h
    have hl : l = [] := List.eq_nil_of_length_eq_zero (by omega)
    subst hl
    rfl
  | succ fuel ih =>
    intro l h
    cases l with
    | nil => rfl
    | cons a t =>
      have h' : t.length + 1 ≤ fuel + 1 := by simpa using h
      have hd : ((a :: t).drop n).length ≤ fuel := by
        rw [List.length_drop]
        simp only [List.length_cons]
        omega
      rw [chunksAux_cons, List.flatten_cons, ih ((a :: t).drop n) hd]
      exact List.take_append_drop n (a :: t)

theorem chunks_pos {α : Type} (n : ℕ) (l : List α) (hn : n ≠ 0) :
    chunks n l = some (chunksAux n l.length l) := by
  rw [chunks, if_neg hn]

theorem bandsOf_eq (threads : ℕ) (bounds : ℕ × ℕ) (hw : 0 < bounds.1) :
    bandsOf threads bounds =
      some ((bandSizes ((bounds.2 / threads + 1) * bounds.1)
          (bounds.1 * bounds.2) (bounds.1 * bounds.2)).map
        (fun k => List.replicate k 0)) := by
  show chunks _ _ = _
  rw [chunks_pos _ _ (Nat.mul_ne_zero (Nat.succ_ne_zero _) (by omega)),
    List.length_replicate, chunksAux_replicate]

/-! ### Row-major indexing of the rendered buffer -/

theorem flatten_get (w : ℕ) : ∀ (rows : List (List ℕ)), (∀ r ∈ rows, r.length = w) →
    ∀ (q c : ℕ), q < rows.length → c < w →
      rows.flatten[q * w + c]? = (rows.getD q [])[c]? := by
  intro rows
  induction rows with
  | nil =>
    intro _ q c hq _
    exact absurd hq (by simp)
  | cons a rows ih =>
    intro hlen q c hq hc
    have ha : a.length = w := hlen a (List.mem_cons_self a rows)
    cases q with
    | zero =>
      rw [List.flatten_cons, show 0 * w + c = c by omega,
        List.getElem?_append_left (by omega), List.getD_cons_zero]
    | succ q =>
      rw [List.flatten_cons, show (q + 1) * w + c = a.length + (q * w + c) by
          rw [ha, Nat.succ_mul]; omega,
        List.getElem?_append_right (by omega), Nat.add_sub_cancel_left,
        List.getD_cons_succ]
      exact ih (fun r hr => hlen r (List.mem_cons_of_mem a hr)) q c
        (by simpa using hq) hc

theorem seqBuf_get (bounds : ℕ × ℕ) (ul lr : Cx) (row col : ℕ)
    (hr : row < bounds.2) (hc : col < bounds.1) :
    ((List.range bounds.2).flatMap (rowPixels bounds ul lr))[row * bounds.1 + col]? =
      some (intensityAt (pixel_to_point bounds (col, row) ul lr)) := by
  rw [List.flatMap_def]
  rw [flatten_get bounds.1 ((List.range bounds.2).map (rowPixels bounds ul lr))
    (fun r hr' => by
      obtain ⟨x, -, rfl⟩ := List.mem_map.mp hr'
      exact rowPixels_length bounds ul lr x)
    row col (by simpa using hr) hc]
  have hgd : ((List.range bounds.2).map (rowPixels bounds ul lr)).getD row [] =
      rowPixels bounds ul lr row := by
    rw [List.getD_eq_getElem?_getD, List.getElem?_map, List.getElem?_range hr]
    rfl
  rw [hgd, rowPixels, List.getElem?_map, List.getElem?_range hc]
  rfl

theorem intensityAt_of_none (p : Cx) (h : escape_time p LIMIT_OF_ITERATION = none) :
    intensityAt p = 0 := by
  simp [intensityAt, h]

theorem intensityAt_of_some (p : Cx) (i : ℕ)
    (h : escape_time p LIMIT_OF_ITERATION = some i) :
    intensityAt p = LIMIT_OF_ITERATION - i := by
  have hL : LIMIT_OF_ITERATION = 255 := rfl
  simp only [intensityAt, h]
  rw [Nat.mod_eq_of_lt (by rw [hL]; omega)]

/-! ### Claim theorems -/

set_option maxRecDepth 400000 in
set_option maxHeartbeats 4000000 in
/-- Claim C1 counterexample: under bit-accurate IEEE binary64 arithmetic the
two renderers are not byte-identical.  For the 1-by-10 image with upper-left
corner `(-0x1.bcd6ec5477b9ap+0) + (0x1.4736a621cfe58p-2)i` and lower-right
corner `(-0x1.79add8a8ef734p-1) - (0x1.37364aa5cc727p+0)i` (all four
coordinates exactly representable doubles, written below as mantissa and
exponent), the band at rows 6..7 recomputes the row-7 point one unit in the
last place above the sequential value, its escape count moves from 2 to 3,
and byte 7 of the buffer differs: 252 in the parallel output against 253 in
the sequential one. -/
theorem parallel_byte_identity_counterexample :
    frun_sequentially (1, 10)
        ⟨⟨-7825700011080602, -52⟩, ⟨5756400284008024, -54⟩⟩
        ⟨⟨-6644200767420212, -53⟩, ⟨-5474900749633319, -52⟩⟩ =
      some [251, 251, 245, 251, 251, 252, 252, 253, 253, 254] ∧
    frun_parallelly (1, 10)
        ⟨⟨-7825700011080602, -52⟩, ⟨5756400284008024, -54⟩⟩
        ⟨⟨-6644200767420212, -53⟩, ⟨-5474900749633319, -52⟩⟩ =
      some [251, 251, 245, 251, 251, 252, 252, 252, 253, 254] ∧
    frun_parallelly (1, 10)
        ⟨⟨-7825700011080602, -52⟩, ⟨5756400284008024, -54⟩⟩
        ⟨⟨-6644200767420212, -53⟩, ⟨-5474900749633319, -52⟩⟩ ≠
      frun_sequentially (1, 10)
        ⟨⟨-7825700011080602, -52⟩, ⟨5756400284008024, -54⟩⟩
        ⟨⟨-6644200767420212, -53⟩, ⟨-5474900749633319, -52⟩⟩ := by
  have hs : frun_sequentially (1, 10)
      ⟨⟨-7825700011080602, -52⟩, ⟨5756400284008024, -54⟩⟩
      ⟨⟨-6644200767420212, -53⟩, ⟨-5474900749633319, -52⟩⟩ =
      some [251, 251, 245, 251, 251, 252, 252, 253, 253, 254] := by
    decide
  have hp : frun_parallelly (1, 10)
      ⟨⟨-7825700011080602, -52⟩, ⟨5756400284008024, -54⟩⟩
      ⟨⟨-6644200767420212, -53⟩, ⟨-5474900749633319, -52⟩⟩ =
      some [251, 251, 245, 251, 251, 252, 252, 252, 253, 254] := by
    decide
  refine ⟨hs, hp, ?_⟩
  rw [hs, hp]
  decide

/-- Claim C1 (amended): with exact (infinitely precise) plane arithmetic —
the rational model `Cx` — the parallel renderer (for any positive thread
count used for band partitioning; the source pins 8) and the sequential
renderer produce byte-identical pixel buffers for every image bounds with
positive width and height and every pair of plane corners.  Under the
rounded `f64` arithmetic of the real program, byte-identity can fail
(`parallel_byte_identity_counterexample`): re-interpolating inside a band
from rounded band corners is off by an ulp for some inputs, which flips an
output byte when that pixel sits on an escape-count boundary. -/
theorem parallel_eq_sequential (threads : ℕ) (bounds : ℕ × ℕ) (ul lr : Cx)
    (ht : 0 < threads) (hw : 0 < bounds.1) (hh : 0 < bounds.2) :
    run_parallelly_with threads bounds ul lr = run_sequentially bounds ul lr ∧
      run_parallelly bounds ul lr = run_sequentially bounds ul lr := by
  constructor
  · rw [run_parallelly_with_eq threads bounds ul lr hw hh, run_sequentially_eq]
  · rw [run_parallelly, run_parallelly_with_eq 8 bounds ul lr hw hh,
      run_sequentially_eq]

/-- Witness for C1 at thread count 7 and a 2-by-3 image. -/
theorem parallel_eq_sequential_witness :
    (0 : ℕ) < 7 ∧ (0 : ℕ) < 2 ∧ (0 : ℕ) < 3 ∧
      (run_parallelly_with 7 (2, 3) ⟨10, 10⟩ ⟨12, 8⟩ =
          run_sequentially (2, 3) ⟨10, 10⟩ ⟨12, 8⟩ ∧
        run_parallelly (2, 3) ⟨10, 10⟩ ⟨12, 8⟩ =
          run_sequentially (2, 3) ⟨10, 10⟩ ⟨12, 8⟩) :=
  ⟨by decide, by decide, by decide,
    parallel_eq_sequential 7 (2, 3) ⟨10, 10⟩ ⟨12, 8⟩ (by decide) (by decide) (by decide)⟩

/-- Claim C2 counterexample: for `c = 5+5i` the evaluator reports escape at
iteration 1, not iteration 0 — the loop tests `z = 0` at index 0, before the
first update, so no input ever escapes at index 0. -/
theorem escape_iter_zero_counterexample :
    escape_time ⟨5, 5⟩ LIMIT_OF_ITERATION ≠ some 0 ∧
      escape_time ⟨5, 5⟩ LIMIT_OF_ITERATION = some 1 :=
  ⟨by rw [escape_time_five]; decide, escape_time_five⟩

/-- Claim C2 (amended): the evaluator returns `some i` exactly when `i` is the
first loop index whose iterate `z` exceeds the divergence threshold; the test
runs before each update starting from `z = 0`, so the immediately diverging
point `c = 5+5i` is reported as escaped at iteration 1, not 0. -/
theorem escape_first_detected (c : Cx) (limit i : ℕ) :
    (escape_time c limit = some i ↔
      (i < limit ∧ LIMIT_TO_CALL_IT_OFF_TO_INFINITY < (zIter c i).normSqr ∧
       ∀ j, j < i → ¬ LIMIT_TO_CALL_IT_OFF_TO_INFINITY < (zIter c j).normSqr)) ∧
    escape_time ⟨5, 5⟩ LIMIT_OF_ITERATION = some 1 :=
  ⟨escape_time_some_iff c limit i, escape_time_five⟩

/-- Claim C5: the coordinate mapper returns the stated linear interpolation of
the two plane corners; in particular bounds (100, 200), pixel (25, 175),
upper-left -1+1i and lower-right 1-1i map to the point -0.5 - 0.75i. -/
theorem pixel_to_point_interpolation (bounds pixel : ℕ × ℕ) (ul lr : Cx)
    (hw : 0 < bounds.1) (hh : 0 < bounds.2) :
    pixel_to_point bounds pixel ul lr =
        ⟨ul.re + (pixel.1 : ℚ) * (lr.re - ul.re) / (bounds.1 : ℚ),
         ul.im - (pixel.2 : ℚ) * (ul.im - lr.im) / (bounds.2 : ℚ)⟩ ∧
      pixel_to_point (100, 200) (25, 175) ⟨-1, 1⟩ ⟨1, -1⟩ = ⟨-(1 / 2), -(3 / 4)⟩ := by
  constructor
  · simp only [pixel_to_point, Cx.mk.injEq]
    constructor <;> ring
  · simp only [pixel_to_point, Cx.mk.injEq]
    norm_num

/-- Witness for C5 at the concrete example of the spec. -/
theorem pixel_to_point_interpolation_witness :
    (0 : ℕ) < 100 ∧ (0 : ℕ) < 200 ∧
      (pixel_to_point (100, 200) (25, 175) ⟨-1, 1⟩ ⟨1, -1⟩ =
          ⟨(-1 : ℚ) + ((25 : ℕ) : ℚ) * ((1 : ℚ) - (-1)) / ((100 : ℕ) : ℚ),
           (1 : ℚ) - ((175 : ℕ) : ℚ) * ((1 : ℚ) - (-1)) / ((200 : ℕ) : ℚ)⟩ ∧
        pixel_to_point (100, 200) (25, 175) ⟨-1, 1⟩ ⟨1, -1⟩ = ⟨-(1 / 2), -(3 / 4)⟩) :=
  ⟨by decide, by decide,
    pixel_to_point_interpolation (100, 200) (25, 175) ⟨-1, 1⟩ ⟨1, -1⟩
      (by decide) (by decide)⟩

/-- Claim C7: the evaluator signals "did not escape" with the distinct result
`none` (not a sentinel index) precisely when no loop index below the limit
satisfies the divergence test; in particular the origin never escapes, for any
positive limit. -/
theorem escape_none_iff_no_divergence :
    (∀ (c : Cx) (limit : ℕ),
      escape_time c limit = none ↔
        ∀ i, i < limit → ¬ LIMIT_TO_CALL_IT_OFF_TO_INFINITY < (zIter c i).normSqr) ∧
    (∀ limit : ℕ, 0 < limit → escape_time ⟨0, 0⟩ limit = none) := by
  constructor
  · exact fun c limit => escape_time_none_iff c limit
  · intro limit _
    rw [escape_time_none_iff]
    intro i _
    rw [zIter_origin]
    norm_num [Cx.normSqr, LIMIT_TO_CALL_IT_OFF_TO_INFINITY]

/-- Witness for C7 at the source limit 255. -/
theorem escape_none_iff_no_divergence_witness :
    (0 : ℕ) < 255 ∧ escape_time ⟨0, 0⟩ 255 = none :=
  ⟨by decide, escape_none_iff_no_divergence.2 255 (by decide)⟩

/-- Claim C10: with the fixed limit 255, the evaluator returns `none` or
`some i` with `1 ≤ i ≤ 254` (index 0 is impossible because `z` starts at 0),
so `(255 - count) as u8` never wraps, every escaped pixel has intensity in
`[1, 254]`, and intensity 0 occurs exactly for points that did not escape. -/
theorem escape_count_bounds (c : Cx) :
    (escape_time c LIMIT_OF_ITERATION = none ∧ intensityAt c = 0) ∨
    (∃ i, escape_time c LIMIT_OF_ITERATION = some i ∧ 1 ≤ i ∧ i ≤ 254 ∧
      intensityAt c = LIMIT_OF_ITERATION - i ∧
      1 ≤ intensityAt c ∧ intensityAt c ≤ 254) := by
  have hL : LIMIT_OF_ITERATION = 255 := rfl
  cases h : escape_time c LIMIT_OF_ITERATION with
  | none => exact Or.inl ⟨rfl, intensityAt_of_none c h⟩
  | some i =>
    right
    obtain ⟨hlt, hdiv, -⟩ := (escape_time_some_iff c LIMIT_OF_ITERATION i).mp h
    have hi1 : 1 ≤ i := by
      rcases Nat.eq_zero_or_pos i with rfl | hp
      · exfalso
        rw [normSqr_zIter_zero] at hdiv
        norm_num [LIMIT_TO_CALL_IT_OFF_TO_INFINITY] at hdiv
      · exact hp
    have hi254 : i ≤ 254 := by omega
    have hint : intensityAt c = LIMIT_OF_ITERATION - i := intensityAt_of_some c i h
    exact ⟨i, rfl, hi1, hi254, hint, by rw [hint, hL]; omega, by rw [hint, hL]; omega⟩

theorem getD_map_replicate_length (l : List ℕ) (i : ℕ) (h : i < l.length) :
    ((l.map (fun k => List.replicate k (0 : ℕ))).getD i []).length = l.getD i 0 := by
  rw [List.getD_eq_getElem?_getD, List.getElem?_map, List.getElem?_eq_getElem h]
  simp [List.getD_eq_getElem?_getD, List.getElem?_eq_getElem h]

/-- Claim C6: under the precondition that the buffer length equals
width times height, the sequential renderer writes, for every pixel at
row-major index `row * width + column`, intensity `255 - escape_count` when
the point escaped and 0 when it did not; a buffer length mismatch is the
fatal `assert!` failure (`none`), not a recoverable value. -/
theorem render_rowmajor (pixels : List ℕ) (bounds : ℕ × ℕ) (ul lr : Cx) :
    (pixels.length ≠ bounds.1 * bounds.2 → render pixels bounds ul lr = none) ∧
    (pixels.length = bounds.1 * bounds.2 →
      ∃ out, render pixels bounds ul lr = some out ∧
        out.length = bounds.1 * bounds.2 ∧
        ∀ row col, row < bounds.2 → col < bounds.1 →
          (escape_time (pixel_to_point bounds (col, row) ul lr) LIMIT_OF_ITERATION =
              none → out[row * bounds.1 + col]? = some 0) ∧
          (∀ count,
            escape_time (pixel_to_point bounds (col, row) ul lr) LIMIT_OF_ITERATION =
                some count →
              out[row * bounds.1 + col]? = some (LIMIT_OF_ITERATION - count))) := by
  constructor
  · exact render_none pixels bounds ul lr
  · intro hlen
    refine ⟨(List.range bounds.2).flatMap (rowPixels bounds ul lr),
      render_eq pixels bounds ul lr hlen, ?_, ?_⟩
    · rw [flatMap_rowPixels_length]
      exact Nat.mul_comm _ _
    · intro row col hr hc
      constructor
      · intro hnone
        rw [seqBuf_get bounds ul lr row col hr hc, intensityAt_of_none _ hnone]
      · intro count hsome
        rw [seqBuf_get bounds ul lr row col hr hc, intensityAt_of_some _ count hsome]

/-- Witness for C6: a 1-by-1 image whose single point escapes at iteration 1
renders to the single byte 254, and the empty buffer trips the assert. -/
theorem render_rowmajor_witness :
    (([] : List ℕ).length ≠ 1 * 1 ∧ render [] (1, 1) ⟨10, 10⟩ ⟨12, 8⟩ = none) ∧
    (([(0 : ℕ)].length = 1 * 1) ∧
      ∃ out, render [(0 : ℕ)] (1, 1) ⟨10, 10⟩ ⟨12, 8⟩ = some out ∧
        out.length = 1 * 1 ∧ out[(0 : ℕ)]? = some 254) := by
  constructor
  · exact ⟨by decide, (render_rowmajor [] (1, 1) ⟨10, 10⟩ ⟨12, 8⟩).1 (by decide)⟩
  · refine ⟨by decide, ?_⟩
    obtain ⟨out, hsome, hlen, hpix⟩ :=
      (render_rowmajor [(0 : ℕ)] (1, 1) ⟨10, 10⟩ ⟨12, 8⟩).2 (by decide)
    refine ⟨out, hsome, hlen, ?_⟩
    have hpt : pixel_to_point (1, 1) (0, 0) ⟨10, 10⟩ ⟨12, 8⟩ = ⟨10, 10⟩ := by
      simp only [pixel_to_point, Cx.mk.injEq]
      norm_num
    have h55 : escape_time (pixel_to_point (1, 1) (0, 0) ⟨10, 10⟩ ⟨12, 8⟩)
        LIMIT_OF_ITERATION = some 1 := by
      rw [hpt, escape_time_some_iff]
      refine ⟨by norm_num [LIMIT_OF_ITERATION], ?_, ?_⟩
      · rw [zIter_one]
        norm_num [Cx.normSqr, LIMIT_TO_CALL_IT_OFF_TO_INFINITY]
      · intro l hl
        have hl0 : l = 0 := by omega
        subst hl0
        rw [normSqr_zIter_zero]
        norm_num [LIMIT_TO_CALL_IT_OFF_TO_INFINITY]
    have hv := (hpix 0 0 (by decide) (by decide)).2 1 h55
    simpa [LIMIT_OF_ITERATION] using hv

/-- Claim C8: the pair parser returns (45, 50) for "45*50" with separator
'*', returns `none` for any string not containing the separator and when a
component fails to parse (the empty component in ",-0.0625"); the complex
parser returns 1.25 - 0.0625i for "1.25,-0.0625". -/
theorem parse_pair_complex_correct :
    parse_pair parseNat ['4', '5', '*', '5', '0'] '*' = some (45, 50) ∧
    (∀ (T : Type) (from_str : List Char → Option T) (s : List Char) (sep : Char),
      sep ∉ s → parse_pair from_str s sep = none) ∧
    parse_complex [',', '-', '0', '.', '0', '6', '2', '5'] = none ∧
    parse_complex ['1', '.', '2', '5', ',', '-', '0', '.', '0', '6', '2', '5'] =
      some ⟨5 / 4, -(1 / 16)⟩ := by
  refine ⟨by decide, ?_, by decide, ?_⟩
  · intro T from_str s sep hsep
    have hf : s.findIdx? (· = sep) = none := by
      rw [List.findIdx?_eq_none_iff]
      intro x hx
      simp only [decide_eq_false_iff_not]
      intro hxe
      exact hsep (hxe ▸ hx)
    simp only [parse_pair, hf]
  · have hr : parse_complex ['1', '.', '2', '5', ',', '-', '0', '.', '0', '6', '2', '5'] =
        some ⟨(digitsVal ['1'] : ℚ) + (digitsVal ['2', '5'] : ℚ) / (10 : ℚ) ^ 2,
              -((digitsVal ['0'] : ℚ) +
                (digitsVal ['0', '6', '2', '5'] : ℚ) / (10 : ℚ) ^ 4)⟩ := rfl
    have d1 : digitsVal ['1'] = 1 := by decide
    have d2 : digitsVal ['2', '5'] = 25 := by decide
    have d3 : digitsVal ['0'] = 0 := by decide
    have d4 : digitsVal ['0', '6', '2', '5'] = 625 := by decide
    rw [hr, d1, d2, d3, d4]
    simp only [Option.some.injEq, Cx.mk.injEq]
    norm_num

/-- Witness for C8: the test string of blanks from the source has no separator
occurrence, so the pair parser returns `none`. -/
theorem parse_pair_complex_correct_witness :
    (',' ∉ ([' ', ' ', ' ', ' ', ' '] : List Char)) ∧
      parse_pair parseNat [' ', ' ', ' ', ' ', ' '] ',' = none :=
  ⟨by decide,
    parse_pair_complex_correct.2.1 ℕ parseNat [' ', ' ', ' ', ' ', ' '] ',' (by decide)⟩

/-- Claim C3 counterexample: for a 1-by-16 image (height divisible by 8) the
parallel path with the default 8 threads cuts 6 bands of heights
3, 3, 3, 3, 3, 1 — neither 8 bands nor bands of height ceil(16/8) = 2. -/
theorem band_partition_counterexample :
    (bandsOf 8 (1, 16)).map (fun bs => bs.map List.length) =
        some [3, 3, 3, 3, 3, 1] ∧
      ¬ ((bandsOf 8 (1, 16)).map (fun bs => bs.map List.length) =
          some (List.replicate 8 ((16 + 8 - 1) / 8))) := by
  constructor
  · decide
  · decide

/-- Claim C3 (amended): with the default thread count 8 the parallel path
partitions the buffer into ceil(height / rows_per_band) row-bands where
`rows_per_band = height / 8 + 1` (floor division plus one — not
ceil(height / 8), and not always 8 bands); every band has height
`rows_per_band` except possibly the last, which is shorter but non-empty,
and the heights sum to the image height. -/
theorem band_partition_layout (bounds : ℕ × ℕ)
    (hw : 0 < bounds.1) (hh : 0 < bounds.2) :
    ∃ bands, bandsOf 8 bounds = some bands ∧
      ∃ heights, bands.map (fun b => b.length / bounds.1) = heights ∧
        heights.length =
          (bounds.2 + (bounds.2 / 8 + 1) - 1) / (bounds.2 / 8 + 1) ∧
        heights.sum = bounds.2 ∧
        (∀ j, j + 1 < heights.length → heights.getD j 0 = bounds.2 / 8 + 1) ∧
        (∀ k ∈ heights, 0 < k ∧ k ≤ bounds.2 / 8 + 1) := by
  have hml : bandSizes ((bounds.2 / 8 + 1) * bounds.1) (bounds.1 * bounds.2)
      (bounds.1 * bounds.2) =
    (bandSizes (bounds.2 / 8 + 1) (bounds.1 * bounds.2) bounds.2).map
      (fun k => bounds.1 * k) := by
    rw [Nat.mul_comm (bounds.2 / 8 + 1) bounds.1]
    exact bandSizes_mul bounds.1 (bounds.2 / 8 + 1) hw (bounds.1 * bounds.2) bounds.2
  have hbands : bandsOf 8 bounds =
      some ((bandSizes (bounds.2 / 8 + 1) (bounds.1 * bounds.2) bounds.2).map
        (fun k => List.replicate (bounds.1 * k) 0)) := by
    rw [bandsOf_eq 8 bounds hw, hml, List.map_map]
    rfl
  refine ⟨_, hbands, bandSizes (bounds.2 / 8 + 1) (bounds.1 * bounds.2) bounds.2,
    ?_, ?_, ?_, ?_, ?_⟩
  · rw [List.map_map]
    have hcomp : ((fun b : List ℕ => b.length / bounds.1) ∘
        fun k => List.replicate (bounds.1 * k) 0) = id := by
      funext k
      simp [Nat.mul_div_cancel_left _ hw]
    rw [hcomp, List.map_id]
  · exact bandSizes_length _ (Nat.succ_pos _) _ _ (Nat.le_mul_of_pos_left _ hw)
  · exact bandSizes_sum _ (Nat.succ_pos _) _ _ (Nat.le_mul_of_pos_left _ hw)
  · exact fun j hj => bandSizes_init _ _ _ j hj
  · exact fun k hk => bandSizes_mem _ (Nat.succ_pos _) _ _ k hk

/-- Witness for C3 (amended) on the 1-by-16 counterexample image. -/
theorem band_partition_layout_witness :
    (0 : ℕ) < 1 ∧ (0 : ℕ) < 16 ∧
      (∃ bands, bandsOf 8 (1, 16) = some bands ∧
        ∃ heights, bands.map (fun b => b.length / 1) = heights ∧
          heights.length = (16 + (16 / 8 + 1) - 1) / (16 / 8 + 1) ∧
          heights.sum = 16 ∧
          (∀ j, j + 1 < heights.length → heights.getD j 0 = 16 / 8 + 1) ∧
          (∀ k ∈ heights, 0 < k ∧ k ≤ 16 / 8 + 1)) :=
  ⟨by decide, by decide, band_partition_layout (1, 16) (by decide) (by decide)⟩

/-- Claim C4: for positive bounds the row-bands are pairwise disjoint and
cover the buffer exactly once — concatenating them in order restores the
whole buffer, every pixel index lies in the index range of exactly one band, and
the parallel render succeeds with no out-of-range access — including when
the band size does not divide the height, for a 1-by-1 image, and when the
band size exceeds the image height. -/
theorem bands_partition (bounds : ℕ × ℕ) (ul lr : Cx)
    (hw : 0 < bounds.1) (hh : 0 < bounds.2) :
    ∃ bands, bandsOf 8 bounds = some bands ∧
      bands.flatten = List.replicate (bounds.1 * bounds.2) 0 ∧
      (∀ p, p < bounds.1 * bounds.2 →
        ∃! i, i < bands.length ∧
          (bounds.2 / 8 + 1) * bounds.1 * i ≤ p ∧
          p < (bounds.2 / 8 + 1) * bounds.1 * i + (bands.getD i []).length) ∧
      (run_parallelly bounds ul lr).isSome := by
  have hn' : 0 < (bounds.2 / 8 + 1) * bounds.1 := Nat.mul_pos (Nat.succ_pos _) hw
  have hM : 0 < bounds.1 * bounds.2 := Nat.mul_pos hw hh
  obtain ⟨bands, hbands⟩ : ∃ bands, bandsOf 8 bounds = some bands :=
    ⟨_, bandsOf_eq 8 bounds hw⟩
  have hrep : bands =
      (bandSizes ((bounds.2 / 8 + 1) * bounds.1) (bounds.1 * bounds.2)
        (bounds.1 * bounds.2)).map (fun k => List.replicate k 0) := by
    have h := bandsOf_eq 8 bounds hw
    rw [hbands] at h
    exact Option.some.inj h
  have hflat : bands.flatten = List.replicate (bounds.1 * bounds.2) 0 := by
    have h2 : bandsOf 8 bounds =
        some (chunksAux ((bounds.2 / 8 + 1) * bounds.1) (bounds.1 * bounds.2)
          (List.replicate (bounds.1 * bounds.2) 0)) := by
      show chunks _ _ = _
      rw [chunks_pos _ _ (by omega), List.length_replicate]
    rw [hbands] at h2
    rw [Option.some.inj h2]
    exact chunksAux_flatten _ hn' _ _ (le_of_eq (List.length_replicate _ _))
  have hlenb : bands.length =
      (bounds.1 * bounds.2 + (bounds.2 / 8 + 1) * bounds.1 - 1) /
        ((bounds.2 / 8 + 1) * bounds.1) := by
    rw [hrep, List.length_map]
    exact bandSizes_length _ hn' _ _ le_rfl
  have hsize : ∀ i, i < bands.length →
      (bands.getD i []).length =
        min ((bounds.2 / 8 + 1) * bounds.1)
          (bounds.1 * bounds.2 - (bounds.2 / 8 + 1) * bounds.1 * i) := by
    intro i hi
    rw [hrep] at hi ⊢
    rw [List.length_map] at hi
    rw [getD_map_replicate_length _ i hi, bandSizes_getD _ _ _ i hi]
  refine ⟨bands, hbands, hflat, ?_, ?_⟩
  · intro p hp
    have hq := Nat.div_add_mod p ((bounds.2 / 8 + 1) * bounds.1)
    have hmod : p % ((bounds.2 / 8 + 1) * bounds.1) < (bounds.2 / 8 + 1) * bounds.1 :=
      Nat.mod_lt p hn'
    have hidx : p / ((bounds.2 / 8 + 1) * bounds.1) < bands.length := by
      rw [hlenb]
      have h1 : p / ((bounds.2 / 8 + 1) * bounds.1) ≤
          (bounds.1 * bounds.2 - 1) / ((bounds.2 / 8 + 1) * bounds.1) :=
        Nat.div_le_div_right (by omega)
      have h2 : bounds.1 * bounds.2 + (bounds.2 / 8 + 1) * bounds.1 - 1 =
          bounds.1 * bounds.2 - 1 + (bounds.2 / 8 + 1) * bounds.1 := by omega
      rw [h2, Nat.add_div_right _ hn']
      omega
    refine ⟨p / ((bounds.2 / 8 + 1) * bounds.1), ⟨hidx, by omega, ?_⟩, ?_⟩
    · rw [hsize _ hidx]
      omega
    · rintro j ⟨hjlen, hj1, hj2⟩
      rw [hsize j hjlen] at hj2
      have hj3 : p < (bounds.2 / 8 + 1) * bounds.1 * j +
          (bounds.2 / 8 + 1) * bounds.1 := by
        have hm := min_le_left ((bounds.2 / 8 + 1) * bounds.1)
          (bounds.1 * bounds.2 - (bounds.2 / 8 + 1) * bounds.1 * j)
        omega
      have h4 : j * ((bounds.2 / 8 + 1) * bounds.1) ≤ p := by
        rw [Nat.mul_comm]
        exact hj1
      have h5 : p < (j + 1) * ((bounds.2 / 8 + 1) * bounds.1) := by
        rw [Nat.succ_mul, Nat.mul_comm j]
        omega
      exact (Nat.div_eq_of_lt_le h4 h5).symm
  · rw [run_parallelly, run_parallelly_with_eq 8 bounds ul lr hw hh]
    rfl

/-- Witness for C4 on a 1-by-1 image (band size exceeds the height). -/
theorem bands_partition_witness :
    (0 : ℕ) < 1 ∧
      (∃ bands, bandsOf 8 (1, 1) = some bands ∧
        bands.flatten = List.replicate (1 * 1) 0 ∧
        (∀ p, p < 1 * 1 →
          ∃! i, i < bands.length ∧
            (1 / 8 + 1) * 1 * i ≤ p ∧
            p < (1 / 8 + 1) * 1 * i + (bands.getD i []).length) ∧
        (run_parallelly (1, 1) ⟨10, 10⟩ ⟨12, 8⟩).isSome) :=
  ⟨by decide, bands_partition (1, 1) ⟨10, 10⟩ ⟨12, 8⟩ (by decide) (by decide)⟩

/-- Claim C9: every band slice cut by the parallel path has a length that is
an exact multiple of the width, so the assert in `render`, namely
`pixels.len() == bounds.0 * bounds.1` holds for every band (its render
succeeds) and every write index `row * width + column` stays inside the
slice of the band. -/
theorem bands_render_safe (bounds : ℕ × ℕ) (ul lr : Cx)
    (hw : 0 < bounds.1) (hh : 0 < bounds.2) :
    ∃ bands, bandsOf 8 bounds = some bands ∧
      ∀ band ∈ bands, bounds.1 ∣ band.length ∧
        (render band (bounds.1, band.length / bounds.1) ul lr).isSome ∧
        ∀ row col, row < band.length / bounds.1 → col < bounds.1 →
          row * bounds.1 + col < band.length := by
  have hml : bandSizes ((bounds.2 / 8 + 1) * bounds.1) (bounds.1 * bounds.2)
      (bounds.1 * bounds.2) =
    (bandSizes (bounds.2 / 8 + 1) (bounds.1 * bounds.2) bounds.2).map
      (fun k => bounds.1 * k) := by
    rw [Nat.mul_comm (bounds.2 / 8 + 1) bounds.1]
    exact bandSizes_mul bounds.1 (bounds.2 / 8 + 1) hw (bounds.1 * bounds.2) bounds.2
  refine ⟨_, bandsOf_eq 8 bounds hw, ?_⟩
  intro band hband
  rw [hml, List.map_map] at hband
  obtain ⟨k, -, rfl⟩ := List.mem_map.mp hband
  simp only [Function.comp_apply, List.length_replicate]
  have hdiv : bounds.1 * k / bounds.1 = k := Nat.mul_div_cancel_left _ hw
  refine ⟨Dvd.intro k rfl, ?_, ?_⟩
  · rw [hdiv, render_eq _ _ _ _ (by rw [List.length_replicate])]
    rfl
  · rw [hdiv]
    intro row col hrow hcol
    calc row * bounds.1 + col < (row + 1) * bounds.1 := by
          rw [Nat.succ_mul]
          omega
      _ ≤ k * bounds.1 := Nat.mul_le_mul_right _ (by omega)
      _ = bounds.1 * k := Nat.mul_comm _ _

/-- Witness for C9 on a 3-by-5 image. -/
theorem bands_render_safe_witness :
    (0 : ℕ) < 3 ∧ (0 : ℕ) < 5 ∧
      (∃ bands, bandsOf 8 (3, 5) = some bands ∧
        ∀ band ∈ bands, 3 ∣ band.length ∧
          (render band (3, band.length / 3) ⟨10, 10⟩ ⟨12, 8⟩).isSome ∧
          ∀ row col, row < band.length / 3 → col < 3 →
            row * 3 + col < band.length) :=
  ⟨by decide, by decide, bands_render_safe (3, 5) ⟨10, 10⟩ ⟨12, 8⟩ (by decide) (by decide)⟩
